import Mathlib

/-!
Verification of the attendance report engine (`src/services/reportService.ts`).

Shallow embedding of the reconciliation-and-classification engine:

* calendar dates are modelled at day granularity (days since the Unix epoch,
  a `Nat`); the source normalizes dates to their canonical `YYYY-MM-DD`
  date-string whenever a date is used as a map key, and the system assumes a
  single consistent timezone, so a day number is the faithful abstraction of
  a normalized date.  The JS `Date.getDay()` of day `d` is `(d + 4) % 7`
  (1970-01-01 was a Thursday; 0 = Sunday, 6 = Saturday);
* JS numbers carrying work hours are modelled as rationals (`ℚ`); the
  entry point of the Clock Formatter additionally admits `NaN`, modelled by
  the `JSNum` type;
* the `types.ts` / `constants.ts` modules of the repository are not part of
  the given sources; their content (the status enum and the three
  configuration constants) is modelled from the specification, and the
  configuration constants are kept as an explicit parameter `Config` so the
  classifier theorems quantify over them.
-/

/-- Modelled from the spec: the closed `AttendanceStatus` enum of the missing
`types.ts` module (§3 of the spec). -/
inductive AttendanceStatus where
  | PRESENT
  | ABSENT
  | HALF_DAY
  | SHORT_HOURS
  | WEEKEND
  | HOLIDAY
  | WORK_ON_WEEKEND
  | WORK_ON_HOLIDAY
  | UNKNOWN
deriving DecidableEq, Repr

/-- Modelled from the spec: the configuration constants of the missing
`constants.ts` module (`WEEKEND_DAYS`, `FULL_DAY_HOURS`, `HALF_DAY_HOURS`),
kept as an explicit parameter so theorems can quantify over them. -/
structure Config where
  WEEKEND_DAYS : List Nat
  FULL_DAY_HOURS : ℚ
  HALF_DAY_HOURS : ℚ
deriving DecidableEq, Repr

/-- Modelled from the spec: the default configuration — weekend =
Saturday/Sunday (`getDay` indices 0 and 6), full-day threshold 8.0 hours,
half-day threshold 4.0 hours. -/
def defaultConfig : Config := ⟨[0, 6], 8, 4⟩

/-- One attendance record, one calendar day for one employee.  Fields are
exactly the ones constructed and read by `reportService.ts` (see the
placeholder object literal in `analyzeData`).  The `date` is a day number;
string-valued optional fields are `Option String` (`null` = `none`). -/
structure AttendanceRecord where
  id : String
  date : Nat
  name : String
  inTime : Option String
  outTime : Option String
  totalHours : Option String
  workHoursDecimal : ℚ
  status : AttendanceStatus
  reason : String
  isAiEnhanced : Bool
deriving DecidableEq, Repr

/-- An employee name together with their record sequence. -/
structure EmployeeData where
  employeeName : String
  records : List AttendanceRecord
deriving DecidableEq, Repr

/-- A holiday: the engine only consumes the date (canonical day number). -/
structure Holiday where
  date : Nat
  name : String
deriving DecidableEq, Repr

/-- The canonical date-string of a day number
(`date.toISOString().split('T')[0]` in the source).  Modelled as the decimal
rendering of the day number: like `YYYY-MM-DD` it is an injective key. -/
def dateKey (d : Nat) : String := toString d

/-- `getStatus` (reportService.ts lines 6–26): the Status Classifier.
`holidayDates` is the set of holiday date keys, modelled by list
membership. -/
def getStatus (cfg : Config) (record : AttendanceRecord) (holidayDates : List Nat) : AttendanceStatus :=
  let dayOfWeek := (record.date + 4) % 7
  let isHoliday := holidayDates.contains record.date
  let isWeekend := cfg.WEEKEND_DAYS.contains dayOfWeek
  if record.workHoursDecimal > 0 then
    if isHoliday then .WORK_ON_HOLIDAY
    else if isWeekend then .WORK_ON_WEEKEND
    else if record.workHoursDecimal ≥ cfg.FULL_DAY_HOURS then .PRESENT
    else if record.workHoursDecimal ≥ cfg.HALF_DAY_HOURS then .SHORT_HOURS
    else .HALF_DAY
  else
    if record.reason = "Out of Office" ∧ record.workHoursDecimal = cfg.FULL_DAY_HOURS then .PRESENT
    else if isHoliday then .HOLIDAY
    else if isWeekend then .WEEKEND
    else .ABSENT

/-- A JS number argument: either `NaN` or an actual (rational) value. -/
inductive JSNum where
  | nan
  | num (q : ℚ)
deriving DecidableEq, Repr

/-- JS `Math.round`: round to the nearest integer, half toward `+∞`. -/
def jsRound (q : ℚ) : ℤ := ⌊q + 1 / 2⌋

/-- JS `s.padStart(2, '0')`. -/
def padStart2 (s : String) : String :=
  if s.length ≥ 2 then s else String.mk (List.replicate (2 - s.length) '0') ++ s

/-- `decimalToTimeString` (reportService.ts lines 28–34): the Clock
Formatter. -/
def decimalToTimeString (decimalHours : JSNum) : String :=
  match decimalHours with
  | .nan => "0:00"
  | .num q =>
    if q < 0 then "0:00"
    else
      let totalMinutes := (jsRound (q * 60)).toNat
      let hours := totalMinutes / 60
      let minutes := totalMinutes % 60
      padStart2 (toString hours) ++ ":" ++ padStart2 (toString minutes)

/-- The running-minimum update of the `minDate` loop in `analyzeData`
(`if (!minDate || recordDate < minDate) minDate = recordDate`). -/
def minStep (acc : Option Nat) (d : Nat) : Option Nat :=
  match acc with
  | none => some d
  | some m => if d < m then some d else some m

/-- The running-maximum update of the `maxDate` loop in `analyzeData`. -/
def maxStep (acc : Option Nat) (d : Nat) : Option Nat :=
  match acc with
  | none => some d
  | some m => if d > m then some d else some m

/-- The global minimum observed date across all employees and records
(the `minDate` pass of `analyzeData`, lines 42–51). -/
def minDate (employees : List EmployeeData) : Option Nat :=
  employees.foldl (fun acc emp => emp.records.foldl (fun a r => minStep a r.date) acc) none

/-- The global maximum observed date across all employees and records
(the `maxDate` pass of `analyzeData`, lines 42–51). -/
def maxDate (employees : List EmployeeData) : Option Nat :=
  employees.foldl (fun acc emp => emp.records.foldl (fun a r => maxStep a r.date) acc) none

/-- The `recordsMap` lookup of `analyzeData` (line 58): a JS `Map` built from
`(dateKey, record)` pairs in record order, so a later record for the same day
overwrites an earlier one ("last write wins").  Looking up day `d` returns
the last record whose date is `d`. -/
def recordsMapGet (records : List AttendanceRecord) (d : Nat) : Option AttendanceRecord :=
  records.foldl (fun acc r => if r.date = d then some r else acc) none

/-- The placeholder object literal of `analyzeData` (lines 70–81): a
synthesized record for a day with no observed data. -/
def placeholderRecord (employeeName : String) (d : Nat) : AttendanceRecord :=
  { id := employeeName ++ "-" ++ dateKey d
    date := d
    name := employeeName
    inTime := none
    outTime := none
    totalHours := none
    workHoursDecimal := 0
    status := .UNKNOWN
    reason := ""
    isAiEnhanced := false }

/-- One iteration of the day-walking loop of `analyzeData` (lines 65–88):
take the employee's existing record for the day if present, otherwise the
placeholder, and recompute its status. -/
def reconcileDay (cfg : Config) (holidayDates : List Nat) (employeeName : String)
    (rmap : Nat → Option AttendanceRecord) (d : Nat) : AttendanceRecord :=
  let record := (rmap d).getD (placeholderRecord employeeName d)
  { record with status := getStatus cfg record holidayDates }

/-- The per-employee body of `analyzeData` (lines 57–93): walk every day from
the global minimum to the global maximum inclusive, reconcile each day, and
sort the result ascending by date. -/
def analyzeEmployee (cfg : Config) (holidayDates : List Nat) (minD maxD : Nat)
    (emp : EmployeeData) : EmployeeData :=
  let newRecords :=
    (List.range' minD (maxD + 1 - minD)).map
      (reconcileDay cfg holidayDates emp.employeeName (recordsMapGet emp.records))
  { employeeName := emp.employeeName
    records := newRecords.mergeSort (fun a b => a.date ≤ b.date) }

/-- `analyzeData` (reportService.ts lines 37–97): the Calendar Reconciler. -/
def analyzeData (cfg : Config) (employees : List EmployeeData) (holidays : List Holiday) :
    List EmployeeData :=
  if employees.isEmpty then []
  else
    let holidayDates := holidays.map (·.date)
    match minDate employees, maxDate employees with
    | some minD, some maxD => employees.map (analyzeEmployee cfg holidayDates minD maxD)
    | _, _ => employees

/-- `records.filter(r => r.status === s).length` — the per-status counters of
`generateSummaryStats`. -/
def countStatus (s : AttendanceStatus) (records : List AttendanceRecord) : Nat :=
  (records.filter (fun r => r.status == s)).length

/-- The `holidays` counter of `generateSummaryStats` (line 105): days whose
status is `HOLIDAY` or `WORK_ON_HOLIDAY`. -/
def countHolidayStatus (records : List AttendanceRecord) : Nat :=
  (records.filter (fun r => r.status == .HOLIDAY || r.status == .WORK_ON_HOLIDAY)).length

/-- The `weekends` counter of `generateSummaryStats` (line 106): days whose
status is `WEEKEND` or `WORK_ON_WEEKEND`. -/
def countWeekendStatus (records : List AttendanceRecord) : Nat :=
  (records.filter (fun r => r.status == .WEEKEND || r.status == .WORK_ON_WEEKEND)).length

/-- The sum `records.reduce((sum, r) => sum + r.workHoursDecimal, 0)`. -/
def totalHoursDecimalOf (records : List AttendanceRecord) : ℚ :=
  records.foldl (fun sum r => sum + r.workHoursDecimal) 0

/-- A `Stat` value is a JS number or a pre-formatted string. -/
inductive StatValue where
  | num (n : ℤ)
  | str (s : String)
deriving DecidableEq, Repr

/-- A named display metric.  `totalHoursDecimal` is the optional raw numeric
companion attached only to the Total Hours Worked metric. -/
structure Stat where
  label : String
  value : StatValue
  color : String
  totalHoursDecimal : Option ℚ
deriving DecidableEq, Repr

/-- `generateSummaryStats` (reportService.ts lines 99–121): the Summary
Aggregator. -/
def generateSummaryStats (records : List AttendanceRecord) : List Stat :=
  let totalDays := records.length
  let present := countStatus .PRESENT records
  let absent := countStatus .ABSENT records
  let halfDays := countStatus .HALF_DAY records
  let shortHours := countStatus .SHORT_HOURS records
  let holidays := countHolidayStatus records
  let weekends := countWeekendStatus records
  let workOnHoliday := countStatus .WORK_ON_HOLIDAY records
  let totalWorkableDays : ℤ := (totalDays : ℤ) - (holidays : ℤ) - (weekends : ℤ)
  let totalHoursDec := totalHoursDecimalOf records
  let totalHoursFormatted := decimalToTimeString (.num totalHoursDec)
  [ ⟨"Total Workable Days", .num totalWorkableDays, "bg-blue-500", none⟩,
    ⟨"Present Days", .num (present : ℤ), "bg-green-500", none⟩,
    ⟨"Absent Days", .num (absent : ℤ), "bg-red-500", none⟩,
    ⟨"Short/Half Days", .str (toString shortHours ++ "/" ++ toString halfDays), "bg-yellow-500", none⟩,
    ⟨"Work on Holiday", .num (workOnHoliday : ℤ), "bg-purple-500", none⟩,
    ⟨"Total Hours Worked", .str totalHoursFormatted, "bg-slate-700", some totalHoursDec⟩ ]

/-- JS `String.prototype.replace` with the one-character string pattern
`' '` and replacement `'_'`: replaces only the **first** occurrence of a
space. -/
def replaceFirstSpace : List Char → List Char
  | [] => []
  | c :: cs => if c = ' ' then '_' :: cs else c :: replaceFirstSpace cs

/-- The document name produced by `exportToExcel` (reportService.ts
line 191).  The current export date (`new Date().toISOString().split('T')[0]`)
is the side-effecting input, passed here as the parameter `exportDateISO`. -/
def exportFileName (employeeName : String) (exportDateISO : String) : String :=
  "Attendance_Report_" ++ String.mk (replaceFirstSpace employeeName.data) ++ "_" ++
    exportDateISO ++ ".xlsx"

/-- Test fixture: an observed record on day `d` with `h` worked hours, an
empty reason, and no punch strings.  Day 0 (1970-01-01) is a Thursday, so
days 0, 1, 4, 5 are weekdays and days 2, 3 are Saturday/Sunday. -/
def plainRecord (d : Nat) (h : ℚ) : AttendanceRecord :=
  { id := "r" ++ dateKey d
    date := d
    name := "A"
    inTime := none
    outTime := none
    totalHours := none
    workHoursDecimal := h
    status := .UNKNOWN
    reason := ""
    isAiEnhanced := false }

/-- All observed dates across all employees and all their records, in
iteration order — the sequence over which the min/max passes of
`analyzeData` fold. -/
def allDates (employees : List EmployeeData) : List Nat :=
  employees.flatMap (fun e => e.records.map (·.date))

/-- Test fixture: two employees, one record each, on days 1 and 3. -/
def sampleEmployees : List EmployeeData :=
  [⟨"A", [plainRecord 1 8]⟩, ⟨"B", [plainRecord 3 0]⟩]

/-! Helper lemmas about the Status Classifier. -/

/-- The classifier never reads the incoming `status` field. -/
theorem getStatus_set_status (cfg : Config) (r : AttendanceRecord) (hds : List Nat)
    (s : AttendanceStatus) : getStatus cfg { r with status := s } hds = getStatus cfg r hds := rfl

/-- The classifier's range excludes `UNKNOWN`. -/
theorem getStatus_ne_unknown (cfg : Config) (r : AttendanceRecord) (hds : List Nat) :
    getStatus cfg r hds ≠ .UNKNOWN := by
  unfold getStatus
  dsimp only
  split_ifs <;> simp

/-- On non-positive hours (with a positive full-day threshold) the classifier
reduces to the holiday/weekend/absent cascade. -/
theorem getStatus_of_nonpos (cfg : Config) (r : AttendanceRecord) (hds : List Nat)
    (hle : r.workHoursDecimal ≤ 0) (hpos : 0 < cfg.FULL_DAY_HOURS) :
    getStatus cfg r hds =
      if hds.contains r.date then .HOLIDAY
      else if cfg.WEEKEND_DAYS.contains ((r.date + 4) % 7) then .WEEKEND
      else .ABSENT := by
  have h1 : ¬ (r.workHoursDecimal > 0) := not_lt.mpr hle
  have h2 : ¬ (r.reason = "Out of Office" ∧ r.workHoursDecimal = cfg.FULL_DAY_HOURS) := by
    rintro ⟨-, h⟩
    rw [h] at hle
    exact absurd hpos (not_lt.mpr hle)
  simp only [getStatus, h1, h2, if_false, if_neg h1, if_neg h2]

/-- C2: the Status Classifier follows the exact decision policy — for
positive hours: holiday (precedence over weekend) → `WORK_ON_HOLIDAY`, else
weekend → `WORK_ON_WEEKEND`, else full-day threshold → `PRESENT`, else
half-day threshold → `SHORT_HOURS`, else `HALF_DAY`; for zero hours (outside
the Out-of-Office special case): holiday → `HOLIDAY`, else weekend →
`WEEKEND`, else `ABSENT`.  With thresholds 8.0/4.0, hours 8.0 / 5.0 / 2.0 /
0 on a plain weekday classify as `PRESENT` / `SHORT_HOURS` / `HALF_DAY` /
`ABSENT`. -/
theorem statusClassifierPolicy :
    (∀ (cfg : Config) (r : AttendanceRecord) (hds : List Nat),
      (0 < r.workHoursDecimal →
        ((r.date ∈ hds → getStatus cfg r hds = .WORK_ON_HOLIDAY) ∧
         (r.date ∉ hds → (r.date + 4) % 7 ∈ cfg.WEEKEND_DAYS →
            getStatus cfg r hds = .WORK_ON_WEEKEND) ∧
         (r.date ∉ hds → (r.date + 4) % 7 ∉ cfg.WEEKEND_DAYS →
            cfg.FULL_DAY_HOURS ≤ r.workHoursDecimal → getStatus cfg r hds = .PRESENT) ∧
         (r.date ∉ hds → (r.date + 4) % 7 ∉ cfg.WEEKEND_DAYS →
            r.workHoursDecimal < cfg.FULL_DAY_HOURS → cfg.HALF_DAY_HOURS ≤ r.workHoursDecimal →
            getStatus cfg r hds = .SHORT_HOURS) ∧
         (r.date ∉ hds → (r.date + 4) % 7 ∉ cfg.WEEKEND_DAYS →
            r.workHoursDecimal < cfg.FULL_DAY_HOURS → r.workHoursDecimal < cfg.HALF_DAY_HOURS →
            getStatus cfg r hds = .HALF_DAY))) ∧
      (r.workHoursDecimal = 0 →
        ¬(r.reason = "Out of Office" ∧ r.workHoursDecimal = cfg.FULL_DAY_HOURS) →
        ((r.date ∈ hds → getStatus cfg r hds = .HOLIDAY) ∧
         (r.date ∉ hds → (r.date + 4) % 7 ∈ cfg.WEEKEND_DAYS → getStatus cfg r hds = .WEEKEND) ∧
         (r.date ∉ hds → (r.date + 4) % 7 ∉ cfg.WEEKEND_DAYS → getStatus cfg r hds = .ABSENT)))) ∧
    (getStatus defaultConfig (plainRecord 0 8) [] = .PRESENT ∧
     getStatus defaultConfig (plainRecord 0 5) [] = .SHORT_HOURS ∧
     getStatus defaultConfig (plainRecord 0 2) [] = .HALF_DAY ∧
     getStatus defaultConfig (plainRecord 0 0) [] = .ABSENT) := by
  refine ⟨fun cfg r hds => ⟨fun hpos => ⟨?_, ?_, ?_, ?_, ?_⟩, fun hz hnc => ⟨?_, ?_, ?_⟩⟩,
    by decide, by decide, by decide, by decide⟩
  · intro hH
    simp [getStatus, hpos, hH]
  · intro hH hW
    simp [getStatus, hpos, hH, hW]
  · intro hH hW hfull
    simp [getStatus, hpos, hH, hW, hfull]
  · intro hH hW hlt hhalf
    simp [getStatus, hpos, hH, hW, not_le.mpr hlt, hhalf]
  · intro hH hW hltf hlth
    simp [getStatus, hpos, hH, hW, not_le.mpr hltf, not_le.mpr hlth]
  · intro hH
    rw [hz] at hnc
    simp [getStatus, hz, hnc, hH]
  · intro hH hW
    rw [hz] at hnc
    simp [getStatus, hz, hnc, hH, hW]
  · intro hH hW
    rw [hz] at hnc
    simp [getStatus, hz, hnc, hH, hW]

/-- Witness for C2: the policy applied at concrete inputs — 9 hours on a
plain Monday is `PRESENT`, 3 hours on a Saturday is `WORK_ON_WEEKEND`, zero
hours on a holiday Monday is `HOLIDAY`. -/
theorem statusClassifierPolicy_witness :
    getStatus defaultConfig (plainRecord 4 9) [] = .PRESENT ∧
    getStatus defaultConfig (plainRecord 2 3) [] = .WORK_ON_WEEKEND ∧
    getStatus defaultConfig (plainRecord 4 0) [4] = .HOLIDAY := by
  refine ⟨?_, ?_, ?_⟩
  · exact ((statusClassifierPolicy.1 defaultConfig (plainRecord 4 9) []).1
      (by decide)).2.2.1 (by decide) (by decide) (by decide)
  · exact ((statusClassifierPolicy.1 defaultConfig (plainRecord 2 3) []).1
      (by decide)).2.1 (by decide) (by decide)
  · exact ((statusClassifierPolicy.1 defaultConfig (plainRecord 4 0) [4]).2
      (by decide) (by decide)).1 (by decide)

/-- C6: the classifier's zero-hours Out-of-Office special case is dead code —
any record reaching the zero-hours branch (non-positive hours) with a
positive full-day threshold falsifies the special-case condition, and
classification proceeds to the holiday/weekend/absent cascade. -/
theorem outOfOfficeSpecialCaseUnreachable (cfg : Config) (r : AttendanceRecord)
    (hds : List Nat) (hle : r.workHoursDecimal ≤ 0) (hpos : 0 < cfg.FULL_DAY_HOURS) :
    ¬(r.reason = "Out of Office" ∧ r.workHoursDecimal = cfg.FULL_DAY_HOURS) ∧
    getStatus cfg r hds =
      (if r.date ∈ hds then .HOLIDAY
       else if (r.date + 4) % 7 ∈ cfg.WEEKEND_DAYS then .WEEKEND
       else .ABSENT) := by
  constructor
  · rintro ⟨-, h⟩
    rw [h] at hle
    exact absurd hpos (not_lt.mpr hle)
  · rw [getStatus_of_nonpos cfg r hds hle hpos]
    simp

/-- Witness for C6: at a record with reason "Out of Office" and zero hours on
a plain Monday, the condition is falsified and the result is `ABSENT`. -/
theorem outOfOfficeSpecialCaseUnreachable_witness :
    ¬(({ plainRecord 4 0 with reason := "Out of Office" } : AttendanceRecord).reason = "Out of Office" ∧
        ({ plainRecord 4 0 with reason := "Out of Office" } : AttendanceRecord).workHoursDecimal =
          defaultConfig.FULL_DAY_HOURS) ∧
    getStatus defaultConfig { plainRecord 4 0 with reason := "Out of Office" } [] = .ABSENT := by
  have h := outOfOfficeSpecialCaseUnreachable defaultConfig
    { plainRecord 4 0 with reason := "Out of Office" } [] (by decide) (by decide)
  exact ⟨h.1, h.2.trans (by decide)⟩

/-- C10: the classifier is total on all numeric hours — every record with
non-positive hours (given a positive full-day threshold) takes the
zero-hours branch, yields `HOLIDAY` / `WEEKEND` / `ABSENT` by the cascade,
and never yields a work status. -/
theorem classifierTotalOnNonpos (cfg : Config) (r : AttendanceRecord) (hds : List Nat)
    (hle : r.workHoursDecimal ≤ 0) (hpos : 0 < cfg.FULL_DAY_HOURS) :
    (r.date ∈ hds → getStatus cfg r hds = .HOLIDAY) ∧
    (r.date ∉ hds → (r.date + 4) % 7 ∈ cfg.WEEKEND_DAYS → getStatus cfg r hds = .WEEKEND) ∧
    (r.date ∉ hds → (r.date + 4) % 7 ∉ cfg.WEEKEND_DAYS → getStatus cfg r hds = .ABSENT) ∧
    getStatus cfg r hds ≠ .PRESENT ∧ getStatus cfg r hds ≠ .WORK_ON_HOLIDAY ∧
    getStatus cfg r hds ≠ .WORK_ON_WEEKEND ∧ getStatus cfg r hds ≠ .SHORT_HOURS ∧
    getStatus cfg r hds ≠ .HALF_DAY := by
  have h := getStatus_of_nonpos cfg r hds hle hpos
  rw [h]
  refine ⟨fun hH => by simp [hH], fun hH hW => by simp [hH, hW], fun hH hW => by simp [hH, hW],
    ?_, ?_, ?_, ?_, ?_⟩ <;> split_ifs <;> simp

/-- Witness for C10: a record with hours −1 on a Saturday (no holidays)
classifies as `WEEKEND` and not as `PRESENT`. -/
theorem classifierTotalOnNonpos_witness :
    getStatus defaultConfig (plainRecord 2 (-1)) [] = .WEEKEND ∧
    getStatus defaultConfig (plainRecord 2 (-1)) [] ≠ .PRESENT := by
  have h := classifierTotalOnNonpos defaultConfig (plainRecord 2 (-1)) [] (by decide) (by decide)
  exact ⟨h.2.1 (by decide) (by decide), h.2.2.2.1⟩

/-! Helper lemmas about the first-occurrence space replacement. -/

/-- `replace(' ', '_')` on a list starting with a space-free segment then a
space replaces exactly that first space. -/
theorem replaceFirstSpace_append_space (l₁ l₂ : List Char) (h : ' ' ∉ l₁) :
    replaceFirstSpace (l₁ ++ ' ' :: l₂) = l₁ ++ '_' :: l₂ := by
  induction l₁ with
  | nil => simp [replaceFirstSpace]
  | cons c cs ih =>
    have hc : ¬ (c = ' ') := fun h' => h (h' ▸ List.mem_cons_self c cs)
    simp [replaceFirstSpace, hc, ih (fun hm => h (List.mem_cons_of_mem c hm))]

/-- `replace(' ', '_')` on a space-free list is the identity. -/
theorem replaceFirstSpace_of_no_space (l : List Char) (h : ' ' ∉ l) :
    replaceFirstSpace l = l := by
  induction l with
  | nil => rfl
  | cons c cs ih =>
    have hc : ¬ (c = ' ') := fun h' => h (h' ▸ List.mem_cons_self c cs)
    simp [replaceFirstSpace, hc, ih (fun hm => h (List.mem_cons_of_mem c hm))]

/-- Evaluation helper: 0.5 hours renders as `"00:30"`. -/
theorem decimalToTimeString_half : decimalToTimeString (.num (1 / 2)) = "00:30" := by
  have h0 : ¬ ((1 : ℚ) / 2 < 0) := by norm_num
  have h1 : jsRound ((1 : ℚ) / 2 * 60) = 30 := by
    unfold jsRound
    norm_num
  simp only [decimalToTimeString, h0, if_false, h1]
  decide

/-- Evaluation helper: 8.0083333 hours is 480.499998 minutes, rounding to
480, so it renders as `"08:00"`. -/
theorem decimalToTimeString_watchcase :
    decimalToTimeString (.num (80083333 / 10000000)) = "08:00" := by
  have h0 : ¬ ((80083333 : ℚ) / 10000000 < 0) := by norm_num
  have h1 : jsRound ((80083333 : ℚ) / 10000000 * 60) = 480 := by
    unfold jsRound
    norm_num
  simp only [decimalToTimeString, h0, if_false, h1]
  decide

/-- Evaluation helper: negative input yields the canonical zero string. -/
theorem decimalToTimeString_neg_one : decimalToTimeString (.num (-1)) = "0:00" := by
  have h0 : ((-1 : ℚ) < 0) := by norm_num
  simp [decimalToTimeString, h0]

/-- C4 counterexample: the Clock Formatter renders 0.5 hours as `"00:30"`
(hours are zero-padded to two digits), not `"0:30"` as the claim states; and
8.0083333 hours is 480.499998 minutes, which rounds to 480, rendering
`"08:00"`, not `"08:01"`. -/
theorem clockFormatterClaim_counterexample :
    decimalToTimeString (.num (1 / 2)) = "00:30" ∧ "00:30" ≠ "0:30" ∧
    decimalToTimeString (.num (80083333 / 10000000)) = "08:00" ∧ "08:00" ≠ "08:01" :=
  ⟨decimalToTimeString_half, by decide, decimalToTimeString_watchcase, by decide⟩

/-- C4 amended: `formatClock(0.5) = "00:30"`, `formatClock(-1) = "0:00"`,
`formatClock(NaN) = "0:00"`, `formatClock(8.0083333) = "08:00"`; negative or
non-numeric input yields the canonical zero string and the function is total;
rounding is applied once to total minutes, so the rendered minutes component
is always a value below 60. -/
theorem clockFormatterAmended :
    (decimalToTimeString (.num (1 / 2)) = "00:30" ∧
     decimalToTimeString (.num (-1)) = "0:00" ∧
     decimalToTimeString .nan = "0:00" ∧
     decimalToTimeString (.num (80083333 / 10000000)) = "08:00") ∧
    (∀ q : ℚ, q < 0 → decimalToTimeString (.num q) = "0:00") ∧
    (∀ q : ℚ, ∃ hstr : String, ∃ m : Nat, m < 60 ∧
      decimalToTimeString (.num q) = hstr ++ ":" ++ padStart2 (toString m)) := by
  refine ⟨⟨decimalToTimeString_half, decimalToTimeString_neg_one, rfl,
    decimalToTimeString_watchcase⟩, fun q hq => by simp [decimalToTimeString, hq], fun q => ?_⟩
  by_cases hq : q < 0
  · exact ⟨"0", 0, by norm_num, by simp [decimalToTimeString, hq]; decide⟩
  · exact ⟨padStart2 (toString ((jsRound (q * 60)).toNat / 60)), (jsRound (q * 60)).toNat % 60,
      Nat.mod_lt _ (by norm_num), by simp [decimalToTimeString, hq]⟩

/-- Witness for C4 amended: a negative input other than −1 also yields the
canonical zero string. -/
theorem clockFormatterAmended_witness :
    decimalToTimeString (JSNum.num (-2)) = "0:00" :=
  clockFormatterAmended.2.1 (-2) (by norm_num)

/-- C5 counterexample: for the employee label `"a b c"` the exported
document name keeps the second space — JS `replace(' ', '_')` replaces only
the first occurrence, so not every space is replaced with an underscore. -/
theorem exportNameClaim_counterexample :
    exportFileName "a b c" "2026-10-11" = "Attendance_Report_a_b c_2026-10-11.xlsx" ∧
    exportFileName "a b c" "2026-10-11" ≠ "Attendance_Report_a_b_c_2026-10-11.xlsx" ∧
    ' ' ∈ ("Attendance_Report_a_b c_2026-10-11.xlsx").data := by
  exact ⟨by decide, by decide, by decide⟩

/-- C5 amended: the exported document is named
`Attendance_Report_<label>_<exportDateISO>.xlsx` where only the **first**
space of the employee label is replaced with an underscore (labels with no
space are kept verbatim). -/
theorem exportNameFirstSpaceOnly :
    (∀ pre post d : String, ' ' ∉ pre.data →
      exportFileName (pre ++ " " ++ post) d =
        "Attendance_Report_" ++ pre ++ "_" ++ post ++ "_" ++ d ++ ".xlsx") ∧
    (∀ s d : String, ' ' ∉ s.data →
      exportFileName s d = "Attendance_Report_" ++ s ++ "_" ++ d ++ ".xlsx") := by
  constructor
  · intro pre post d h
    apply String.ext
    have hdata : (pre ++ " " ++ post).data = pre.data ++ ' ' :: post.data := by
      simp [String.data_append]
    simp [exportFileName, String.data_append, hdata, replaceFirstSpace_append_space pre.data post.data h]
  · intro s d h
    apply String.ext
    simp [exportFileName, String.data_append, replaceFirstSpace_of_no_space s.data h]

/-- Witness for C5 amended: a label with two spaces gets only the first one
replaced. -/
theorem exportNameFirstSpaceOnly_witness :
    exportFileName ("John" ++ " " ++ "Smith Jr") "2026-10-11" =
      "Attendance_Report_" ++ "John" ++ "_" ++ "Smith Jr" ++ "_" ++ "2026-10-11" ++ ".xlsx" :=
  exportNameFirstSpaceOnly.1 "John" "Smith Jr" "2026-10-11" (by decide)

/-- C7: for a record sequence with no `UNKNOWN` statuses, the Summary
Aggregator's counters partition the input — present + absent + half + short +
holiday-kind + weekend-kind equals the record count. -/
theorem summaryCountsPartition (records : List AttendanceRecord)
    (h : ∀ r ∈ records, r.status ≠ .UNKNOWN) :
    countStatus .PRESENT records + countStatus .ABSENT records +
      countStatus .HALF_DAY records + countStatus .SHORT_HOURS records +
      countHolidayStatus records + countWeekendStatus records = records.length := by
  induction records with
  | nil => rfl
  | cons r rs ih =>
    have hr : r.status ≠ .UNKNOWN := h r (List.mem_cons_self r rs)
    have ih' := ih (fun x hx => h x (List.mem_cons_of_mem r hx))
    cases hst : r.status
    case UNKNOWN => exact absurd hst hr
    all_goals
      simp [countStatus, countHolidayStatus, countWeekendStatus, List.filter_cons,
        hst] at ih' ⊢
    all_goals omega

/-- Witness for C7: a two-record sequence (one `PRESENT`, one `WEEKEND`)
partitions into total 2. -/
theorem summaryCountsPartition_witness :
    countStatus .PRESENT [{ plainRecord 0 8 with status := .PRESENT },
        { plainRecord 2 0 with status := .WEEKEND }] +
      countStatus .ABSENT [{ plainRecord 0 8 with status := .PRESENT },
        { plainRecord 2 0 with status := .WEEKEND }] +
      countStatus .HALF_DAY [{ plainRecord 0 8 with status := .PRESENT },
        { plainRecord 2 0 with status := .WEEKEND }] +
      countStatus .SHORT_HOURS [{ plainRecord 0 8 with status := .PRESENT },
        { plainRecord 2 0 with status := .WEEKEND }] +
      countHolidayStatus [{ plainRecord 0 8 with status := .PRESENT },
        { plainRecord 2 0 with status := .WEEKEND }] +
      countWeekendStatus [{ plainRecord 0 8 with status := .PRESENT },
        { plainRecord 2 0 with status := .WEEKEND }] = 2 :=
  summaryCountsPartition [{ plainRecord 0 8 with status := .PRESENT },
    { plainRecord 2 0 with status := .WEEKEND }] (by decide)

/-- C8: the Summary Aggregator returns exactly six metrics, in the fixed
order Total Workable Days, Present Days, Absent Days, Short/Half Days, Work
on Holiday, Total Hours Worked; Total Workable Days is the day count minus
holiday-kind days minus weekend-kind days, Short/Half Days is the combined
`short/half` string, and Total Hours Worked is the hour sum rendered by the
Clock Formatter with the raw sum attached alongside. -/
theorem summaryStatsShape (records : List AttendanceRecord) :
    generateSummaryStats records =
      [⟨"Total Workable Days",
         .num ((records.length : ℤ) - (countHolidayStatus records : ℤ) -
           (countWeekendStatus records : ℤ)), "bg-blue-500", none⟩,
       ⟨"Present Days", .num (countStatus .PRESENT records : ℤ), "bg-green-500", none⟩,
       ⟨"Absent Days", .num (countStatus .ABSENT records : ℤ), "bg-red-500", none⟩,
       ⟨"Short/Half Days",
         .str (toString (countStatus .SHORT_HOURS records) ++ "/" ++
           toString (countStatus .HALF_DAY records)), "bg-yellow-500", none⟩,
       ⟨"Work on Holiday", .num (countStatus .WORK_ON_HOLIDAY records : ℤ),
         "bg-purple-500", none⟩,
       ⟨"Total Hours Worked",
         .str (decimalToTimeString (.num (totalHoursDecimalOf records))),
         "bg-slate-700", some (totalHoursDecimalOf records)⟩] ∧
    (generateSummaryStats records).length = 6 ∧
    (generateSummaryStats records).map Stat.label =
      ["Total Workable Days", "Present Days", "Absent Days", "Short/Half Days",
       "Work on Holiday", "Total Hours Worked"] :=
  ⟨rfl, rfl, rfl⟩

/-! Helper lemmas about the min/max date folds. -/

/-- The running-minimum update on a `some` accumulator computes `min`. -/
theorem minStep_some (m d : Nat) : minStep (some m) d = some (min m d) := by
  simp only [minStep]
  split <;> (congr 1; omega)

/-- The running-maximum update on a `some` accumulator computes `max`. -/
theorem maxStep_some (m d : Nat) : maxStep (some m) d = some (max m d) := by
  simp only [maxStep]
  split <;> (congr 1; omega)

/-- Folding `minStep` from a `some` accumulator is folding `min`. -/
theorem foldl_minStep_some (l : List Nat) (m : Nat) :
    l.foldl minStep (some m) = some (l.foldl min m) := by
  induction l generalizing m with
  | nil => rfl
  | cons d l ih => simp [List.foldl_cons, minStep_some, ih]

/-- Folding `maxStep` from a `some` accumulator is folding `max`. -/
theorem foldl_maxStep_some (l : List Nat) (m : Nat) :
    l.foldl maxStep (some m) = some (l.foldl max m) := by
  induction l generalizing m with
  | nil => rfl
  | cons d l ih => simp [List.foldl_cons, maxStep_some, ih]

/-- A `min`-fold result is bounded by its seed. -/
theorem foldl_min_le (l : List Nat) (m : Nat) : l.foldl min m ≤ m := by
  induction l generalizing m with
  | nil => exact le_refl m
  | cons d l ih => exact le_trans (ih (min m d)) (min_le_left m d)

/-- A `min`-fold result is bounded by every list element. -/
theorem foldl_min_le_mem (l : List Nat) (m : Nat) : ∀ d ∈ l, l.foldl min m ≤ d := by
  induction l generalizing m with
  | nil => intro d hd; exact absurd hd (List.not_mem_nil d)
  | cons x l ih =>
    intro d hd
    rcases List.mem_cons.mp hd with h | h
    · subst h
      exact le_trans (foldl_min_le l (min m d)) (min_le_right m d)
    · exact ih (min m x) d h

/-- A `min`-fold result is the seed or one of the list elements. -/
theorem foldl_min_mem (l : List Nat) (m : Nat) : l.foldl min m = m ∨ l.foldl min m ∈ l := by
  induction l generalizing m with
  | nil => exact Or.inl rfl
  | cons x l ih =>
    rcases ih (min m x) with h | h
    · rcases min_choice m x with hc | hc
      · exact Or.inl (by rw [List.foldl_cons, h, hc])
      · exact Or.inr (by rw [List.foldl_cons, h, hc]; exact List.mem_cons_self x l)
    · exact Or.inr (List.mem_cons_of_mem x h)

/-- A `max`-fold result dominates its seed. -/
theorem foldl_max_ge (l : List Nat) (m : Nat) : m ≤ l.foldl max m := by
  induction l generalizing m with
  | nil => exact le_refl m
  | cons d l ih => exact le_trans (le_max_left m d) (ih (max m d))

/-- A `max`-fold result dominates every list element. -/
theorem foldl_max_ge_mem (l : List Nat) (m : Nat) : ∀ d ∈ l, d ≤ l.foldl max m := by
  induction l generalizing m with
  | nil => intro d hd; exact absurd hd (List.not_mem_nil d)
  | cons x l ih =>
    intro d hd
    rcases List.mem_cons.mp hd with h | h
    · subst h
      exact le_trans (le_max_right m d) (foldl_max_ge l (max m d))
    · exact ih (max m x) d h

/-- A `max`-fold result is the seed or one of the list elements. -/
theorem foldl_max_mem (l : List Nat) (m : Nat) : l.foldl max m = m ∨ l.foldl max m ∈ l := by
  induction l generalizing m with
  | nil => exact Or.inl rfl
  | cons x l ih =>
    rcases ih (max m x) with h | h
    · rcases max_choice m x with hc | hc
      · exact Or.inl (by rw [List.foldl_cons, h, hc])
      · exact Or.inr (by rw [List.foldl_cons, h, hc]; exact List.mem_cons_self x l)
    · exact Or.inr (List.mem_cons_of_mem x h)

/-- The nested per-employee/per-record fold of `analyzeData` equals a flat
fold over `allDates`. -/
theorem foldl_nested_eq_flat (step : Option Nat → Nat → Option Nat) :
    ∀ (es : List EmployeeData) (acc : Option Nat),
      es.foldl (fun acc emp => emp.records.foldl (fun a r => step a r.date) acc) acc =
        (allDates es).foldl step acc := by
  intro es
  induction es with
  | nil => intro acc; rfl
  | cons e es ih =>
    intro acc
    simp only [List.foldl_cons, allDates, List.flatMap_cons, List.foldl_append, ih]
    congr 1
    rw [List.foldl_map]

/-- `minDate` is a flat `minStep` fold over `allDates`. -/
theorem minDate_eq_foldl (employees : List EmployeeData) :
    minDate employees = (allDates employees).foldl minStep none :=
  foldl_nested_eq_flat minStep employees none

/-- `maxDate` is a flat `maxStep` fold over `allDates`. -/
theorem maxDate_eq_foldl (employees : List EmployeeData) :
    maxDate employees = (allDates employees).foldl maxStep none :=
  foldl_nested_eq_flat maxStep employees none

/-- `minDate` is `none` exactly when no record exists. -/
theorem minDate_eq_none_iff (employees : List EmployeeData) :
    minDate employees = none ↔ allDates employees = [] := by
  rw [minDate_eq_foldl]
  cases hb : allDates employees with
  | nil => simp
  | cons d l =>
    simp only [List.foldl_cons]
    rw [show minStep none d = some d from rfl, foldl_minStep_some]
    simp

/-- `maxDate` is `none` exactly when no record exists. -/
theorem maxDate_eq_none_iff (employees : List EmployeeData) :
    maxDate employees = none ↔ allDates employees = [] := by
  rw [maxDate_eq_foldl]
  cases hb : allDates employees with
  | nil => simp
  | cons d l =>
    simp only [List.foldl_cons]
    rw [show maxStep none d = some d from rfl, foldl_maxStep_some]
    simp

/-- A successful `minDate` is an attained lower bound of all observed dates. -/
theorem minDate_some_spec (employees : List EmployeeData) (m : Nat)
    (h : minDate employees = some m) :
    m ∈ allDates employees ∧ ∀ d ∈ allDates employees, m ≤ d := by
  rw [minDate_eq_foldl] at h
  cases hb : allDates employees with
  | nil => rw [hb] at h; exact absurd h (by simp)
  | cons d l =>
    rw [hb, List.foldl_cons, show minStep none d = some d from rfl, foldl_minStep_some] at h
    have hm : m = l.foldl min d := by injection h.symm
    constructor
    · rcases foldl_min_mem l d with h1 | h1
      · rw [hm, h1]
        exact List.mem_cons_self d l
      · rw [hm]
        exact List.mem_cons_of_mem d h1
    · intro x hx
      rcases List.mem_cons.mp hx with h1 | h1
      · exact hm ▸ h1 ▸ foldl_min_le l d
      · exact hm ▸ foldl_min_le_mem l d x h1

/-- A successful `maxDate` is an attained upper bound of all observed dates. -/
theorem maxDate_some_spec (employees : List EmployeeData) (m : Nat)
    (h : maxDate employees = some m) :
    m ∈ allDates employees ∧ ∀ d ∈ allDates employees, d ≤ m := by
  rw [maxDate_eq_foldl] at h
  cases hb : allDates employees with
  | nil => rw [hb] at h; exact absurd h (by simp)
  | cons d l =>
    rw [hb, List.foldl_cons, show maxStep none d = some d from rfl, foldl_maxStep_some] at h
    have hm : m = l.foldl max d := by injection h.symm
    constructor
    · rcases foldl_max_mem l d with h1 | h1
      · rw [hm, h1]
        exact List.mem_cons_self d l
      · rw [hm]
        exact List.mem_cons_of_mem d h1
    · intro x hx
      rcases List.mem_cons.mp hx with h1 | h1
      · exact hm ▸ h1 ▸ foldl_max_ge l d
      · exact hm ▸ foldl_max_ge_mem l d x h1

/-! Helper lemmas about the records-map lookup and day reconciliation. -/

/-- The last-write-wins fold only returns records whose date is the key. -/
theorem foldl_lookup_spec (d : Nat) :
    ∀ (l : List AttendanceRecord) (acc : Option AttendanceRecord),
      (∀ x, acc = some x → x.date = d) →
      ∀ r, l.foldl (fun acc r => if r.date = d then some r else acc) acc = some r →
        r.date = d ∧ (r ∈ l ∨ acc = some r) := by
  intro l
  induction l with
  | nil =>
    intro acc hacc r hr
    exact ⟨hacc r hr, Or.inr hr⟩
  | cons x l ih =>
    intro acc hacc r hr
    rw [List.foldl_cons] at hr
    by_cases hx : x.date = d
    · have h := ih (if x.date = d then some x else acc)
        (fun y hy => by rw [if_pos hx] at hy; injection hy with hy; rw [← hy]; exact hx) r hr
      refine ⟨h.1, ?_⟩
      rcases h.2 with h2 | h2
      · exact Or.inl (List.mem_cons_of_mem x h2)
      · rw [if_pos hx] at h2
        injection h2 with h2
        rw [← h2]
        exact Or.inl (List.mem_cons_self x l)
    · have h := ih (if x.date = d then some x else acc)
        (fun y hy => by rw [if_neg hx] at hy; exact hacc y hy) r hr
      refine ⟨h.1, ?_⟩
      rcases h.2 with h2 | h2
      · exact Or.inl (List.mem_cons_of_mem x h2)
      · rw [if_neg hx] at h2
        exact Or.inr h2

/-- A successful `recordsMapGet` returns a stored record for the looked-up
day. -/
theorem recordsMapGet_date (records : List AttendanceRecord) (d : Nat)
    (r : AttendanceRecord) (h : recordsMapGet records d = some r) :
    r.date = d ∧ r ∈ records := by
  have hs := foldl_lookup_spec d records none (fun x hx => by cases hx) r h
  refine ⟨hs.1, ?_⟩
  rcases hs.2 with h2 | h2
  · exact h2
  · cases h2

/-- If no stored record matches the key, the fold leaves the accumulator. -/
theorem foldl_lookup_no_match (d : Nat) :
    ∀ (l : List AttendanceRecord) (acc : Option AttendanceRecord),
      (∀ r ∈ l, r.date ≠ d) →
      l.foldl (fun acc r => if r.date = d then some r else acc) acc = acc := by
  intro l
  induction l with
  | nil => intro acc _; rfl
  | cons x l ih =>
    intro acc hne
    rw [List.foldl_cons, if_neg (hne x (List.mem_cons_self x l))]
    exact ih acc (fun r hr => hne r (List.mem_cons_of_mem x hr))

/-- Looking up day `d` in a list built by mapping a per-day record maker over
a duplicate-free day list returns exactly the record made for `d`. -/
theorem recordsMapGet_of_mk (mk : Nat → AttendanceRecord)
    (hmk : ∀ x, (mk x).date = x) (d : Nat) :
    ∀ (l : List Nat) (acc : Option AttendanceRecord), l.Nodup → d ∈ l →
      (l.map mk).foldl (fun acc r => if r.date = d then some r else acc) acc = some (mk d) := by
  intro l
  induction l with
  | nil => intro acc _ hd; exact absurd hd (List.not_mem_nil d)
  | cons x l ih =>
    intro acc hnd hd
    rw [List.map_cons, List.foldl_cons]
    rcases List.mem_cons.mp hd with h | h
    · subst h
      rw [if_pos (hmk d)]
      have hnotin : d ∉ l := (List.nodup_cons.mp hnd).1
      apply foldl_lookup_no_match
      intro r hr
      obtain ⟨y, hy, rfl⟩ := List.mem_map.mp hr
      rw [hmk y]
      intro hyd
      exact hnotin (hyd ▸ hy)
    · exact ih _ (List.nodup_cons.mp hnd).2 h

/-- The reconciled record for day `d` is dated `d`. -/
theorem reconcileDay_date (cfg : Config) (hds : List Nat) (employeeName : String)
    (rmap : Nat → Option AttendanceRecord) (d : Nat)
    (hrm : ∀ r, rmap d = some r → r.date = d) :
    (reconcileDay cfg hds employeeName rmap d).date = d := by
  unfold reconcileDay
  cases h : rmap d with
  | none => simp [h, placeholderRecord]
  | some r =>
    simp only [h, Option.getD_some]
    exact hrm r h

/-- Every reconciled record's status is the classifier's verdict on the
record itself. -/
theorem reconcileDay_status (cfg : Config) (hds : List Nat) (employeeName : String)
    (rmap : Nat → Option AttendanceRecord) (d : Nat) :
    (reconcileDay cfg hds employeeName rmap d).status =
      getStatus cfg (reconcileDay cfg hds employeeName rmap d) hds := by
  unfold reconcileDay
  rw [getStatus_set_status]

/-- Reconciling a day whose stored record already carries the classifier's
verdict returns that record unchanged. -/
theorem reconcileDay_fixpoint (cfg : Config) (hds : List Nat) (employeeName : String)
    (rmap : Nat → Option AttendanceRecord) (d : Nat) (r : AttendanceRecord)
    (h : rmap d = some r) (hst : r.status = getStatus cfg r hds) :
    reconcileDay cfg hds employeeName rmap d = r := by
  unfold reconcileDay
  rw [h]
  simp only [Option.getD_some]
  rw [← hst]

/-! Helper lemmas about the per-employee reconciliation. -/

/-- The day walk already emits records in ascending date order, so the final
sort leaves the walk output unchanged:`analyzeEmployee`'s records are the
day-by-day reconciliations of the global range. -/
theorem analyzeEmployee_records (cfg : Config) (hds : List Nat) (minD maxD : Nat)
    (emp : EmployeeData) :
    (analyzeEmployee cfg hds minD maxD emp).records =
      (List.range' minD (maxD + 1 - minD)).map
        (reconcileDay cfg hds emp.employeeName (recordsMapGet emp.records)) := by
  show (((List.range' minD (maxD + 1 - minD)).map _).mergeSort _) = _
  apply List.mergeSort_of_sorted
  rw [List.pairwise_map]
  have hp : (List.range' minD (maxD + 1 - minD)).Pairwise (· < ·) :=
    List.pairwise_lt_range' minD (maxD + 1 - minD) 1 (by omega)
  refine hp.imp ?_
  intro a b hab
  have ha := reconcileDay_date cfg hds emp.employeeName (recordsMapGet emp.records) a
    (fun r h => (recordsMapGet_date emp.records a r h).1)
  have hb := reconcileDay_date cfg hds emp.employeeName (recordsMapGet emp.records) b
    (fun r h => (recordsMapGet_date emp.records b r h).1)
  simp only [ha, hb, decide_eq_true_eq]
  exact Nat.le_of_lt hab

/-- The reconciled record sequence is dated exactly by the walked range. -/
theorem analyzeEmployee_dates (cfg : Config) (hds : List Nat) (minD maxD : Nat)
    (emp : EmployeeData) :
    (analyzeEmployee cfg hds minD maxD emp).records.map (·.date) =
      List.range' minD (maxD + 1 - minD) := by
  rw [analyzeEmployee_records, List.map_map]
  have h : ∀ d ∈ List.range' minD (maxD + 1 - minD),
      ((fun r => r.date) ∘ reconcileDay cfg hds emp.employeeName (recordsMapGet emp.records)) d =
        id d := by
    intro d _
    exact reconcileDay_date cfg hds emp.employeeName (recordsMapGet emp.records) d
      (fun r hr => (recordsMapGet_date emp.records d r hr).1)
  rw [List.map_congr_left h, List.map_id]

/-- `analyzeEmployee` keeps the employee name. -/
theorem analyzeEmployee_name (cfg : Config) (hds : List Nat) (minD maxD : Nat)
    (emp : EmployeeData) :
    (analyzeEmployee cfg hds minD maxD emp).employeeName = emp.employeeName := rfl

/-! Helper lemmas about the top-level reconciler branches. -/

/-- With no observed record at all, `analyzeData` returns its input
unchanged (the empty-collection guard returns `[]`, which is the input). -/
theorem analyzeData_of_none (cfg : Config) (employees : List EmployeeData)
    (holidays : List Holiday) (h : minDate employees = none) :
    analyzeData cfg employees holidays = employees := by
  cases employees with
  | nil => rfl
  | cons e es =>
    have hmax : maxDate (e :: es) = none :=
      (maxDate_eq_none_iff (e :: es)).mpr ((minDate_eq_none_iff (e :: es)).mp h)
    simp only [analyzeData, List.isEmpty_cons, Bool.false_eq_true, if_false, h, hmax]

/-- With an observed range, `analyzeData` maps the per-employee
reconciliation over the input. -/
theorem analyzeData_eq_map (cfg : Config) (employees : List EmployeeData)
    (holidays : List Holiday) (minD maxD : Nat) (hmin : minDate employees = some minD)
    (hmax : maxDate employees = some maxD) (hne : employees ≠ []) :
    analyzeData cfg employees holidays =
      employees.map (analyzeEmployee cfg (holidays.map (·.date)) minD maxD) := by
  cases employees with
  | nil => exact absurd rfl hne
  | cons e es =>
    simp only [analyzeData, List.isEmpty_cons, Bool.false_eq_true, if_false, hmin, hmax]

/-- When `minDate` finds nothing, no employee has any record. -/
theorem minDate_none_records (employees : List EmployeeData)
    (h : minDate employees = none) : ∀ emp ∈ employees, emp.records = [] := by
  intro emp hemp
  have hall := (minDate_eq_none_iff employees).mp h
  rcases hr : emp.records with _ | ⟨r, rs⟩
  · rfl
  · exfalso
    have : r.date ∈ allDates employees := by
      simp only [allDates, List.mem_flatMap]
      exact ⟨emp, hemp, by rw [hr]; simp⟩
    rw [hall] at this
    exact absurd this (List.not_mem_nil r.date)

/-- Every observed date is in `allDates`. -/
theorem mem_allDates (employees : List EmployeeData) (emp : EmployeeData)
    (hemp : emp ∈ employees) (r : AttendanceRecord) (hr : r ∈ emp.records) :
    r.date ∈ allDates employees := by
  simp only [allDates, List.mem_flatMap]
  exact ⟨emp, hemp, List.mem_map.mpr ⟨r, hr, rfl⟩⟩

/-- C9: after reconciliation no record carries `UNKNOWN` — every emitted
record's status was recomputed by the classifier, whose range excludes
`UNKNOWN`, and the unchanged-input branches emit no records at all. -/
theorem analyzeDataNoUnknown (cfg : Config) (employees : List EmployeeData)
    (holidays : List Holiday) :
    ∀ emp ∈ analyzeData cfg employees holidays, ∀ r ∈ emp.records,
      r.status ≠ .UNKNOWN := by
  intro emp hemp r hr
  rcases hmin : minDate employees with _ | minD
  · rw [analyzeData_of_none cfg employees holidays hmin] at hemp
    rw [minDate_none_records employees hmin emp hemp] at hr
    exact absurd hr (List.not_mem_nil r)
  · rcases hmax : maxDate employees with _ | maxD
    · exfalso
      have h1 := (maxDate_eq_none_iff employees).mp hmax
      have h2 := (minDate_eq_none_iff employees).mpr h1
      rw [h2] at hmin
      cases hmin
    · have hne : employees ≠ [] := by
        intro h
        rw [h] at hmin
        cases hmin
      rw [analyzeData_eq_map cfg employees holidays minD maxD hmin hmax hne] at hemp
      obtain ⟨emp₀, _, rfl⟩ := List.mem_map.mp hemp
      rw [analyzeEmployee_records] at hr
      obtain ⟨d, _, rfl⟩ := List.mem_map.mp hr
      rw [reconcileDay_status]
      exact getStatus_ne_unknown cfg _ _

/-- Witness for C9: the reconciled day-1 record of a one-employee collection
does not carry `UNKNOWN`. -/
theorem analyzeDataNoUnknown_witness :
    (reconcileDay defaultConfig [] "A" (recordsMapGet [plainRecord 1 8]) 1).status ≠
      AttendanceStatus.UNKNOWN := by
  have hmin : minDate [⟨"A", [plainRecord 1 8]⟩] = some 1 := by decide
  have hmax : maxDate [⟨"A", [plainRecord 1 8]⟩] = some 1 := by decide
  have hmap := analyzeData_eq_map defaultConfig [⟨"A", [plainRecord 1 8]⟩] [] 1 1 hmin hmax
    (by simp)
  apply analyzeDataNoUnknown defaultConfig [⟨"A", [plainRecord 1 8]⟩] []
    (analyzeEmployee defaultConfig [] 1 1 ⟨"A", [plainRecord 1 8]⟩)
  · rw [hmap]
    exact List.mem_map_of_mem _ (List.mem_cons_self _ _)
  · rw [analyzeEmployee_records]
    simp

/-- C1: for a non-empty input (some employee has a record), reconciliation
gives every output employee the record-date sequence
`[m, m+1, …, M]` — contiguous, duplicate-free, ascending — where `m`/`M`
are the attained global minimum/maximum observed date across all employees'
original records (one shared range for every employee). -/
theorem reconciledDatesContiguous (cfg : Config) (employees : List EmployeeData)
    (holidays : List Holiday) (e₀ : EmployeeData) (he : e₀ ∈ employees)
    (hne : e₀.records ≠ []) :
    ∃ m M, minDate employees = some m ∧ maxDate employees = some M ∧ m ≤ M ∧
      m ∈ allDates employees ∧ M ∈ allDates employees ∧
      (∀ emp ∈ employees, ∀ r ∈ emp.records, m ≤ r.date ∧ r.date ≤ M) ∧
      ∀ emp ∈ analyzeData cfg employees holidays,
        emp.records.map (·.date) = List.range' m (M + 1 - m) := by
  obtain ⟨r₀, hr₀⟩ : ∃ r, r ∈ e₀.records := by
    rcases hrec : e₀.records with _ | ⟨r, rs⟩
    · exact absurd hrec hne
    · exact ⟨r, hrec ▸ List.mem_cons_self r rs⟩
  have hd₀ : r₀.date ∈ allDates employees := mem_allDates employees e₀ he r₀ hr₀
  have hempne : employees ≠ [] := by
    intro h
    rw [h] at he
    exact absurd he (List.not_mem_nil e₀)
  rcases hmin : minDate employees with _ | m
  · exfalso
    rw [(minDate_eq_none_iff employees).mp hmin] at hd₀
    exact absurd hd₀ (List.not_mem_nil r₀.date)
  rcases hmax : maxDate employees with _ | M
  · exfalso
    rw [(minDate_eq_none_iff employees).mpr ((maxDate_eq_none_iff employees).mp hmax)] at hmin
    cases hmin
  obtain ⟨hm_mem, hm_lb⟩ := minDate_some_spec employees m hmin
  obtain ⟨hM_mem, hM_ub⟩ := maxDate_some_spec employees M hmax
  refine ⟨m, M, rfl, rfl, le_trans (hm_lb r₀.date hd₀) (hM_ub r₀.date hd₀), hm_mem, hM_mem,
    ?_, ?_⟩
  · intro emp hemp r hr
    have := mem_allDates employees emp hemp r hr
    exact ⟨hm_lb r.date this, hM_ub r.date this⟩
  · intro emp hemp
    rw [analyzeData_eq_map cfg employees holidays m M hmin hmax hempne] at hemp
    obtain ⟨emp₀, _, rfl⟩ := List.mem_map.mp hemp
    exact analyzeEmployee_dates cfg (holidays.map (·.date)) m M emp₀

/-- Witness for C1: on the two-employee fixture (records on days 1 and 3),
the shared range is day 1 to day 3 and the first reconciled employee's dates
are exactly `[1, 2, 3]`. -/
theorem reconciledDatesContiguous_witness :
    minDate sampleEmployees = some 1 ∧ maxDate sampleEmployees = some 3 ∧
    (analyzeEmployee defaultConfig [] 1 3 ⟨"A", [plainRecord 1 8]⟩).records.map (·.date) =
      List.range' 1 3 := by
  obtain ⟨m, M, h1, h2, h3, h4, h5, h6, h7⟩ :=
    reconciledDatesContiguous defaultConfig sampleEmployees [] ⟨"A", [plainRecord 1 8]⟩
      (by simp [sampleEmployees]) (by simp [plainRecord])
  have e1 : minDate sampleEmployees = some 1 := by decide
  have e2 : maxDate sampleEmployees = some 3 := by decide
  rw [e1] at h1
  rw [e2] at h2
  injection h1 with h1
  injection h2 with h2
  subst h1
  subst h2
  refine ⟨e1, e2, ?_⟩
  have hmem : analyzeEmployee defaultConfig [] 1 3 ⟨"A", [plainRecord 1 8]⟩ ∈
      analyzeData defaultConfig sampleEmployees [] := by
    rw [analyzeData_eq_map defaultConfig sampleEmployees [] 1 3 e1 e2 (by simp [sampleEmployees])]
    exact List.mem_map_of_mem _ (by simp [sampleEmployees])
  exact h7 _ hmem

/-! Helper lemmas for idempotence of the reconciler. -/

/-- Two employees with the same name and records are equal. -/
theorem EmployeeData.ext_eq (a b : EmployeeData) (h1 : a.employeeName = b.employeeName)
    (h2 : a.records = b.records) : a = b := by
  cases a
  cases b
  simp_all

/-- Reconciling an already-reconciled employee over the same range and
holiday set changes nothing: every day's lookup now hits the day's record,
whose status is already the classifier's verdict. -/
theorem analyzeEmployee_idem (cfg : Config) (hds : List Nat) (minD maxD : Nat)
    (emp : EmployeeData) :
    analyzeEmployee cfg hds minD maxD (analyzeEmployee cfg hds minD maxD emp) =
      analyzeEmployee cfg hds minD maxD emp := by
  apply EmployeeData.ext_eq
  · rw [analyzeEmployee_name, analyzeEmployee_name]
  · rw [analyzeEmployee_records]
    conv_rhs => rw [analyzeEmployee_records]
    apply List.map_congr_left
    intro d hd
    have hdate : ∀ x, (reconcileDay cfg hds emp.employeeName (recordsMapGet emp.records) x).date = x :=
      fun x => reconcileDay_date cfg hds emp.employeeName (recordsMapGet emp.records) x
        (fun r hr => (recordsMapGet_date emp.records x r hr).1)
    have hlk : recordsMapGet (analyzeEmployee cfg hds minD maxD emp).records d =
        some (reconcileDay cfg hds emp.employeeName (recordsMapGet emp.records) d) := by
      rw [analyzeEmployee_records]
      show (List.map _ _).foldl _ none = _
      exact recordsMapGet_of_mk _ hdate d (List.range' minD (maxD + 1 - minD)) none
        (List.nodup_range' minD (maxD + 1 - minD)) hd
    exact reconcileDay_fixpoint cfg hds _ _ d _ hlk
      (reconcileDay_status cfg hds emp.employeeName (recordsMapGet emp.records) d)

/-- The observed dates of a fully reconciled collection are one copy of the
walked range per employee. -/
theorem allDates_map_analyzeEmployee (cfg : Config) (hds : List Nat) (minD maxD : Nat)
    (employees : List EmployeeData) :
    allDates (employees.map (analyzeEmployee cfg hds minD maxD)) =
      employees.flatMap (fun _ => List.range' minD (maxD + 1 - minD)) := by
  induction employees with
  | nil => rfl
  | cons e es ih =>
    simp only [allDates, List.map_cons, List.flatMap_cons] at ih ⊢
    rw [ih]
    congr 1
    exact analyzeEmployee_dates cfg hds minD maxD e

/-- An attained lower bound is the `minStep` fold result. -/
theorem foldl_minStep_of_lb (l : List Nat) (m : Nat) (hm : m ∈ l)
    (hlb : ∀ d ∈ l, m ≤ d) : l.foldl minStep none = some m := by
  cases l with
  | nil => exact absurd hm (List.not_mem_nil m)
  | cons d l =>
    rw [List.foldl_cons, show minStep none d = some d from rfl, foldl_minStep_some]
    congr 1
    have hub : l.foldl min d ≤ m := by
      rcases List.mem_cons.mp hm with h | h
      · rw [h]
        exact foldl_min_le l d
      · exact foldl_min_le_mem l d m h
    have hlb' : m ≤ l.foldl min d := by
      rcases foldl_min_mem l d with h | h
      · rw [h]
        exact hlb d (List.mem_cons_self d l)
      · exact hlb _ (List.mem_cons_of_mem d h)
    exact le_antisymm hub hlb'

/-- An attained upper bound is the `maxStep` fold result. -/
theorem foldl_maxStep_of_ub (l : List Nat) (m : Nat) (hm : m ∈ l)
    (hub : ∀ d ∈ l, d ≤ m) : l.foldl maxStep none = some m := by
  cases l with
  | nil => exact absurd hm (List.not_mem_nil m)
  | cons d l =>
    rw [List.foldl_cons, show maxStep none d = some d from rfl, foldl_maxStep_some]
    congr 1
    have hlb : m ≤ l.foldl max d := by
      rcases List.mem_cons.mp hm with h | h
      · rw [h]
        exact foldl_max_ge l d
      · exact foldl_max_ge_mem l d m h
    have hub' : l.foldl max d ≤ m := by
      rcases foldl_max_mem l d with h | h
      · rw [h]
        exact hub d (List.mem_cons_self d l)
      · exact hub _ (List.mem_cons_of_mem d h)
    exact le_antisymm hub' hlb

/-- A reconciled collection's global minimum date is the walked range's
start. -/
theorem minDate_map_analyze (cfg : Config) (hds : List Nat) (minD maxD : Nat)
    (employees : List EmployeeData) (hne : employees ≠ []) (hle : minD ≤ maxD) :
    minDate (employees.map (analyzeEmployee cfg hds minD maxD)) = some minD := by
  rw [minDate_eq_foldl, allDates_map_analyzeEmployee]
  apply foldl_minStep_of_lb
  · cases employees with
    | nil => exact absurd rfl hne
    | cons e es =>
      simp only [List.flatMap_cons, List.mem_append]
      exact Or.inl (List.mem_range'_1.mpr ⟨le_refl minD, by omega⟩)
  · intro d hd
    rw [List.mem_flatMap] at hd
    obtain ⟨_, _, hd⟩ := hd
    exact (List.mem_range'_1.mp hd).1

/-- A reconciled collection's global maximum date is the walked range's
end. -/
theorem maxDate_map_analyze (cfg : Config) (hds : List Nat) (minD maxD : Nat)
    (employees : List EmployeeData) (hne : employees ≠ []) (hle : minD ≤ maxD) :
    maxDate (employees.map (analyzeEmployee cfg hds minD maxD)) = some maxD := by
  rw [maxDate_eq_foldl, allDates_map_analyzeEmployee]
  apply foldl_maxStep_of_ub
  · cases employees with
    | nil => exact absurd rfl hne
    | cons e es =>
      simp only [List.flatMap_cons, List.mem_append]
      exact Or.inl (List.mem_range'_1.mpr ⟨hle, by omega⟩)
  · intro d hd
    rw [List.mem_flatMap] at hd
    obtain ⟨_, _, hd⟩ := hd
    have := (List.mem_range'_1.mp hd).2
    omega

/-- C3: reconciliation is idempotent — running the Calendar Reconciler on
its own output with the same holiday set returns that output identically
(same ids, dates, statuses; synthesized ids are derived from employee name
and date key, so they are stable). -/
theorem analyzeDataIdempotent (cfg : Config) (employees : List EmployeeData)
    (holidays : List Holiday) :
    analyzeData cfg (analyzeData cfg employees holidays) holidays =
      analyzeData cfg employees holidays := by
  cases employees with
  | nil => rfl
  | cons e es =>
    rcases hmin : minDate (e :: es) with _ | m
    · rw [analyzeData_of_none cfg (e :: es) holidays hmin]
      exact analyzeData_of_none cfg (e :: es) holidays hmin
    rcases hmax : maxDate (e :: es) with _ | M
    · exfalso
      rw [(minDate_eq_none_iff (e :: es)).mpr ((maxDate_eq_none_iff (e :: es)).mp hmax)] at hmin
      cases hmin
    have hne : (e :: es) ≠ [] := List.cons_ne_nil e es
    have hle : m ≤ M := by
      obtain ⟨hm_mem, -⟩ := minDate_some_spec (e :: es) m hmin
      obtain ⟨-, hM_ub⟩ := maxDate_some_spec (e :: es) M hmax
      exact hM_ub m hm_mem
    rw [analyzeData_eq_map cfg (e :: es) holidays m M hmin hmax hne]
    rw [analyzeData_eq_map cfg _ holidays m M
      (minDate_map_analyze cfg (holidays.map (·.date)) m M (e :: es) hne hle)
      (maxDate_map_analyze cfg (holidays.map (·.date)) m M (e :: es) hne hle)
      (by simp)]
    rw [List.map_map]
    apply List.map_congr_left
    intro emp₀ _
    exact analyzeEmployee_idem cfg (holidays.map (·.date)) m M emp₀
